import Mathlib

/-!
# Constant reporter (`ioctl.c`)

Shallow embedding of `src/ioctl.c`: a `main` that makes three `printf` calls and
returns 0.  The three header constants are parameters of the model (the headers
are not part of the repository); `printf` is modelled after the C standard for
the two conversions the program uses, `%x` and `%lx`.
-/

namespace Ioctl

/-! ## Data model -/

/-- Data model of the build target: `int` is 32 bits wide on both, `long` is
32 bits on ILP32 and 64 bits on LP64. -/
inductive Target where
  | ILP32
  | LP64
  deriving DecidableEq, Repr

/-- Width in bits of `unsigned int`. -/
def UINT_BITS : Nat := 32

/-- Width in bits of `unsigned long` on the target. -/
def Target.longBits : Target → Nat
  | .ILP32 => 32
  | .LP64 => 64

/-- Values of the three constants the headers `<linux/dma-heap.h>` and
`<fcntl.h>` define, as mathematical integers. -/
structure Headers where
  DMA_HEAP_IOCTL_ALLOC : Int
  O_RDWR : Int
  O_CLOEXEC : Int
  deriving DecidableEq, Repr

/-- State of the process and its host.  `stdout` and `stderr` hold the
characters the program has handed to the two streams so far, in order.
`faults` is what the host answers to the coming output calls, one entry a
call: `true` when the call reports an output error to its caller, which is all
the program can observe of the delivery of its output. -/
structure World where
  argv : List String
  environ : List (String × String)
  stdin : List Char
  stdout : List Char
  stderr : List Char
  files : List (String × List Char)
  fds : List Nat
  faults : List Bool
  deriving DecidableEq, Repr

/-! ## `printf` -/

/-- Lowercase hexadecimal digit of a value below 16 (`"0123456789abcdef"[d]`). -/
def xdigit (d : Nat) : Char :=
  if d < 10 then Char.ofNat (48 + d) else Char.ofNat (87 + d)

/-- Hexadecimal digits of `n`, most significant first, put in front of `acc`.
No digit is produced for 0.  `fuel` bounds the number of digits. -/
def fmt_x : Nat → Nat → List Char → List Char
  | 0, _, acc => acc
  | fuel + 1, n, acc =>
    if n = 0 then acc else fmt_x fuel (n / 16) (xdigit (n % 16) :: acc)

/-- The argument as the unsigned type of `bits` bits reads it. -/
def toUnsigned (bits : Nat) (v : Int) : Nat :=
  (v % (2 : Int) ^ bits).toNat

/-- Conversion `x` at a width of `bits` bits with the default precision 1: the
digits of the value, at least one. -/
def convHex (bits : Nat) (v : Int) : List Char :=
  let ds := fmt_x bits (toUnsigned bits v) []
  if ds.isEmpty then ['0'] else ds

/-- State of the scan of a format string: in ordinary text, after `%`, after `%l`. -/
inductive Scan where
  | text
  | percent
  | percentL
  deriving DecidableEq, Repr

/-- Text a format string produces from its arguments.  Only what the program
uses is defined (`%x`, `%lx`, `%%`, ordinary characters); anything else, and a
conversion without an argument, has no result. -/
def vformat (t : Target) : Scan → List Char → List Int → Option (List Char)
  | .text, [], _ => some []
  | .text, c :: fmt, args =>
    if c = '%' then vformat t .percent fmt args
    else (vformat t .text fmt args).map (c :: ·)
  | .percent, c :: fmt, args =>
    if c = '%' then (vformat t .text fmt args).map ('%' :: ·)
    else if c = 'l' then vformat t .percentL fmt args
    else if c = 'x' then
      match args with
      | a :: rest => (vformat t .text fmt rest).map (convHex UINT_BITS a ++ ·)
      | [] => none
    else none
  | .percentL, c :: fmt, args =>
    if c = 'x' then
      match args with
      | a :: rest => (vformat t .text fmt rest).map (convHex t.longBits a ++ ·)
      | [] => none
    else none
  | _, [], _ => none

/-- The call `printf(format, args...)` of the C library: the text the format
produces is handed to standard output; the value returned is the number of
characters, or a negative value when the host reports an output error. -/
def printf (t : Target) (format : String) (args : List Int) (w : World) :
    Option (Int × World) :=
  match vformat t .text format.toList args with
  | none => none
  | some text =>
    let ret : Int := if w.faults.head? = some true then -1 else text.length
    some (ret, { w with stdout := w.stdout ++ text, faults := w.faults.tail })

/-! ## The program -/

/-- The function `main` of `ioctl.c`: result is the exit status and the final state. -/
def main (t : Target) (k : Headers) (w : World) : Option (Int × World) := do
  let (_, w) ← printf t "DMA_HEAP_IOCTL_ALLOC: 0x%lx\n" [k.DMA_HEAP_IOCTL_ALLOC] w
  let (_, w) ← printf t "O_RDWR: 0x%x\n" [k.O_RDWR] w
  let (_, w) ← printf t "O_CLOEXEC: 0x%x\n" [k.O_CLOEXEC] w
  return (0, w)

/-- A state with nothing written, nothing open beyond the three standard
descriptors, and a host that reports no error. -/
def World.init : World :=
  { argv := [], environ := [], stdin := [], stdout := [], stderr := [],
    files := [], fds := [0, 1, 2], faults := [] }

/-- Constants of a standard Linux build environment. -/
def linuxHeaders : Headers :=
  { DMA_HEAP_IOCTL_ALLOC := 0xc0184800, O_RDWR := 0x2, O_CLOEXEC := 0x80000 }

/-! ## Reading a report back

The definitions of this section follow the words of the specification: they
take the text of a report apart again. -/

/-- Characters of the class `[0-9a-f]`. -/
def isLowerHex (c : Char) : Bool :=
  ('0' ≤ c && c ≤ '9') || ('a' ≤ c && c ≤ 'f')

/-- Characters a label is made of: letters, digits and the underscore. -/
def isLabelChar (c : Char) : Bool :=
  c.isAlphanum || c = '_'

/-- Value of one hexadecimal digit, of either case. -/
def hexVal (c : Char) : Option Nat :=
  if '0' ≤ c ∧ c ≤ '9' then some (c.toNat - 48)
  else if 'a' ≤ c ∧ c ≤ 'f' then some (c.toNat - 87)
  else if 'A' ≤ c ∧ c ≤ 'F' then some (c.toNat - 55)
  else none

/-- Base-16 reading of a digit string, continuing from `acc`. -/
def parseHexAux : Nat → List Char → Option Nat
  | acc, [] => some acc
  | acc, c :: cs =>
    match hexVal c with
    | some d => parseHexAux (16 * acc + d) cs
    | none => none

/-- Base-16 number a non-empty digit string denotes. -/
def parseHex (ds : List Char) : Option Nat :=
  if ds.isEmpty then none else parseHexAux 0 ds

/-- The lines of a text in which every line ends in a newline; no result when
the last line lacks its newline. -/
def splitLines : List Char → Option (List (List Char))
  | [] => some []
  | c :: cs =>
    if c = '\n' then (splitLines cs).map ([] :: ·)
    else
      match splitLines cs with
      | some (l :: ls) => some ((c :: l) :: ls)
      | _ => none

/-- What follows the label and `: 0x` on a line that starts with them. -/
def afterLabel (label : String) (line : List Char) : Option (List Char) :=
  let p := label.toList ++ [':', ' ', '0', 'x']
  if p.isPrefixOf line then some (line.drop p.length) else none

/-- Recogniser of the pattern `Label: 0x[0-9a-f]+`. -/
def matchesLine (line : List Char) : Bool :=
  let label := line.takeWhile isLabelChar
  match line.dropWhile isLabelChar with
  | ':' :: ' ' :: '0' :: 'x' :: ds => !label.isEmpty && !ds.isEmpty && ds.all isLowerHex
  | _ => false

/-- Number of base-16 digits of a natural number (one for 0). -/
def hexLen (n : Nat) : Nat :=
  if n = 0 then 1 else Nat.log 16 n + 1

/-- The three numbers a report shows: its text must be the three lines with
the three labels, in this order, and each number is read in base 16 from the
digits after `0x`. -/
def readReport (out : List Char) : Option (Nat × Nat × Nat) :=
  match splitLines out with
  | some [l1, l2, l3] =>
    match (afterLabel "DMA_HEAP_IOCTL_ALLOC" l1).bind parseHex,
          (afterLabel "O_RDWR" l2).bind parseHex,
          (afterLabel "O_CLOEXEC" l3).bind parseHex with
    | some a, some b, some c => some (a, b, c)
    | _, _, _ => none
  | _ => none

/-- Reading the report back gives exactly the three constants. -/
def ReadsBack (k : Headers) (out : List Char) : Prop :=
  ∃ a b c : Nat, readReport out = some (a, b, c) ∧
    (a : Int) = k.DMA_HEAP_IOCTL_ALLOC ∧ (b : Int) = k.O_RDWR ∧ (c : Int) = k.O_CLOEXEC

/-- The constants are values of the unsigned types the conversions read:
`unsigned long` for `%lx`, `unsigned int` for `%x`. -/
def Headers.InRange (t : Target) (k : Headers) : Prop :=
  (0 ≤ k.DMA_HEAP_IOCTL_ALLOC ∧ k.DMA_HEAP_IOCTL_ALLOC < 2 ^ t.longBits) ∧
  (0 ≤ k.O_RDWR ∧ k.O_RDWR < 2 ^ UINT_BITS) ∧
  (0 ≤ k.O_CLOEXEC ∧ k.O_CLOEXEC < 2 ^ UINT_BITS)

/-- The constants are values of C types that may be passed for the conversions:
`long` or `unsigned long` for `%lx`, `int` or `unsigned int` for `%x`. -/
def Headers.WellTyped (t : Target) (k : Headers) : Prop :=
  (-(2 ^ (t.longBits - 1)) ≤ k.DMA_HEAP_IOCTL_ALLOC ∧ k.DMA_HEAP_IOCTL_ALLOC < 2 ^ t.longBits) ∧
  (-(2 ^ (UINT_BITS - 1)) ≤ k.O_RDWR ∧ k.O_RDWR < 2 ^ UINT_BITS) ∧
  (-(2 ^ (UINT_BITS - 1)) ≤ k.O_CLOEXEC ∧ k.O_CLOEXEC < 2 ^ UINT_BITS)

/-- Digits `ds` write the constant `v`, read at a width of `bits` bits, without
padding: the single digit 0 for zero, no leading 0 otherwise, and as many
digits as the value has in base 16. -/
def Unpadded (bits : Nat) (v : Int) (ds : List Char) : Prop :=
  (v = 0 → ds = ['0']) ∧ (v ≠ 0 → ds.head? ≠ some '0') ∧
  ds.length = hexLen (toUnsigned bits v) ∧ (0 ≤ v → ds.length = hexLen v.toNat)

/-- Digits `ds` show the constant `v` at a width of `bits` bits: read back
they give `v` modulo `2 ^ bits`, which is `v` itself for `0 ≤ v < 2 ^ (bits - 1)`
and the image `v + 2 ^ bits` for a negative `v` of the signed type, and there
are at most `bits / 4` of them. -/
def ShownAtWidth (bits : Nat) (v : Int) (ds : List Char) : Prop :=
  ∃ n : Nat, parseHex ds = some n ∧ (n : Int) = v % 2 ^ bits ∧
    (0 ≤ v → v < 2 ^ (bits - 1) → (n : Int) = v) ∧
    (-(2 ^ (bits - 1)) ≤ v → v < 0 → (n : Int) = v + 2 ^ bits) ∧
    ds.length ≤ bits / 4

instance (t : Target) (k : Headers) : Decidable (k.InRange t) := by
  unfold Headers.InRange
  infer_instance

instance (t : Target) (k : Headers) : Decidable (k.WellTyped t) := by
  unfold Headers.WellTyped
  infer_instance

/-- Constants with a negative flag value, as an `int` may hold. -/
def negativeFlagHeaders : Headers :=
  { DMA_HEAP_IOCTL_ALLOC := 0xc0184800, O_RDWR := -1, O_CLOEXEC := 0x80000 }

/-- A state in which the host reports an output error on every call. -/
def World.failing : World :=
  { World.init with faults := [true, true, true] }

/-- Text of the three lines, as the three calls lay it down. -/
def reportText (t : Target) (k : Headers) : List Char :=
  ("DMA_HEAP_IOCTL_ALLOC: 0x".toList ++ convHex t.longBits k.DMA_HEAP_IOCTL_ALLOC) ++ '\n' ::
  (("O_RDWR: 0x".toList ++ convHex UINT_BITS k.O_RDWR) ++ '\n' ::
  (("O_CLOEXEC: 0x".toList ++ convHex UINT_BITS k.O_CLOEXEC) ++ ['\n']))

/-! ## Digits -/

theorem xdigit_isLowerHex {d : Nat} (hd : d < 16) : isLowerHex (xdigit d) = true := by
  interval_cases d <;> rfl

theorem xdigit_hexVal {d : Nat} (hd : d < 16) : hexVal (xdigit d) = some d := by
  interval_cases d <;> rfl

theorem xdigit_eq_zero_iff {d : Nat} (hd : d < 16) : xdigit d = '0' ↔ d = 0 := by
  interval_cases d <;> decide

/-- With enough fuel `fmt_x` lays down the base-16 digits of its argument. -/
theorem fmt_x_eq_digits (fuel : Nat) : ∀ (n : Nat) (acc : List Char), n < 16 ^ fuel →
    fmt_x fuel n acc = ((Nat.digits 16 n).map xdigit).reverse ++ acc := by
  induction fuel with
  | zero =>
    intro n acc hn
    have h0 : n = 0 := by simpa using hn
    subst h0
    simp [fmt_x]
  | succ fuel ih =>
    intro n acc hn
    by_cases h0 : n = 0
    · subst h0
      simp [fmt_x]
    · have hpos : 0 < n := Nat.pos_of_ne_zero h0
      have hdiv : n / 16 < 16 ^ fuel := by
        rw [Nat.div_lt_iff_lt_mul (by norm_num)]
        rw [pow_succ] at hn
        exact hn
      rw [fmt_x, if_neg h0, ih _ _ hdiv, Nat.digits_def' (by norm_num) hpos]
      simp

theorem toUnsigned_lt (bits : Nat) (v : Int) : toUnsigned bits v < 2 ^ bits := by
  unfold toUnsigned
  have hpos : (0 : Int) < (2 : Int) ^ bits := by positivity
  have h1 := Int.emod_lt_of_pos v hpos
  have h2 := Int.emod_nonneg v (ne_of_gt hpos)
  zify
  rw [Int.toNat_of_nonneg h2]
  exact_mod_cast h1

theorem toUnsigned_cast (bits : Nat) (v : Int) :
    ((toUnsigned bits v : Nat) : Int) = v % (2 : Int) ^ bits := by
  unfold toUnsigned
  have hpos : (0 : Int) < (2 : Int) ^ bits := by positivity
  exact Int.toNat_of_nonneg (Int.emod_nonneg v (ne_of_gt hpos))

theorem toUnsigned_lt_fuel (bits : Nat) (v : Int) : toUnsigned bits v < 16 ^ bits :=
  lt_of_lt_of_le (toUnsigned_lt bits v) (Nat.pow_le_pow_left (by norm_num) bits)

/-- The digits `convHex` prints, in terms of `Nat.digits`. -/
theorem convHex_eq (bits : Nat) (v : Int) :
    convHex bits v =
      if toUnsigned bits v = 0 then ['0']
      else ((Nat.digits 16 (toUnsigned bits v)).map xdigit).reverse := by
  unfold convHex
  simp only [fmt_x_eq_digits bits _ [] (toUnsigned_lt_fuel bits v), List.append_nil]
  by_cases h0 : toUnsigned bits v = 0
  · simp [h0]
  · have hne : Nat.digits 16 (toUnsigned bits v) ≠ [] := Nat.digits_ne_nil_iff_ne_zero.mpr h0
    simp [h0, hne]

theorem convHex_ne_nil (bits : Nat) (v : Int) : convHex bits v ≠ [] := by
  rw [convHex_eq]
  by_cases h0 : toUnsigned bits v = 0
  · simp [h0]
  · have hne : Nat.digits 16 (toUnsigned bits v) ≠ [] := Nat.digits_ne_nil_iff_ne_zero.mpr h0
    simp [h0, hne]

theorem convHex_lowerHex (bits : Nat) (v : Int) :
    ∀ c ∈ convHex bits v, isLowerHex c = true := by
  intro c hc
  rw [convHex_eq] at hc
  by_cases h0 : toUnsigned bits v = 0
  · simp only [h0, if_true, List.mem_singleton] at hc
    subst hc
    rfl
  · simp only [h0, if_false, List.mem_reverse, List.mem_map] at hc
    obtain ⟨d, hd, rfl⟩ := hc
    exact xdigit_isLowerHex (Nat.digits_lt_base (by norm_num) hd)

theorem parseHexAux_append (l1 l2 : List Char) : ∀ acc : Nat,
    parseHexAux acc (l1 ++ l2) = (parseHexAux acc l1).bind (fun a => parseHexAux a l2) := by
  induction l1 with
  | nil => intro acc; simp [parseHexAux]
  | cons c cs ih =>
    intro acc
    simp only [List.cons_append, parseHexAux]
    cases hexVal c with
    | none => simp
    | some d => simpa using ih _

theorem parseHexAux_digits (L : List Nat) (hL : ∀ d ∈ L, d < 16) : ∀ acc : Nat,
    parseHexAux acc ((L.map xdigit).reverse) = some (acc * 16 ^ L.length + Nat.ofDigits 16 L) := by
  induction L with
  | nil => intro acc; simp [parseHexAux]
  | cons d L ih =>
    intro acc
    have hd : d < 16 := hL d (List.mem_cons_self _ _)
    have hL2 : ∀ e ∈ L, e < 16 := fun e he => hL e (List.mem_cons_of_mem _ he)
    simp only [List.map_cons, List.reverse_cons, parseHexAux_append, ih hL2 acc,
      Option.some_bind, parseHexAux, xdigit_hexVal hd, List.length_cons, Nat.ofDigits_cons]
    congr 1
    ring

/-- Reading back what `convHex` prints gives the value at the width of the conversion. -/
theorem parseHex_convHex (bits : Nat) (v : Int) :
    parseHex (convHex bits v) = some (toUnsigned bits v) := by
  unfold parseHex
  have hne := convHex_ne_nil bits v
  have hemp : (convHex bits v).isEmpty = false := by
    cases h : convHex bits v with
    | nil => exact absurd h hne
    | cons _ _ => rfl
  rw [hemp]
  simp only [Bool.false_eq_true, if_false]
  rw [convHex_eq]
  by_cases h0 : toUnsigned bits v = 0
  · simp only [h0, if_true]
    rfl
  · simp only [h0, if_false]
    rw [parseHexAux_digits _ (fun d hd => Nat.digits_lt_base (by norm_num) hd) 0]
    simp [Nat.ofDigits_digits]

theorem convHex_of_zero {bits : Nat} {v : Int} (h : toUnsigned bits v = 0) :
    convHex bits v = ['0'] := by
  rw [convHex_eq, if_pos h]

theorem convHex_head_ne_zero {bits : Nat} {v : Int} (h : toUnsigned bits v ≠ 0) :
    (convHex bits v).head? ≠ some '0' := by
  rw [convHex_eq, if_neg h]
  have hne : Nat.digits 16 (toUnsigned bits v) ≠ [] := Nat.digits_ne_nil_iff_ne_zero.mpr h
  have hlast := Nat.getLast_digit_ne_zero 16 h
  have hmem : (Nat.digits 16 (toUnsigned bits v)).getLast hne ∈ Nat.digits 16 (toUnsigned bits v) :=
    List.getLast_mem hne
  have hlt := Nat.digits_lt_base (by norm_num : 1 < 16) hmem
  rw [List.head?_reverse, List.getLast?_map, List.getLast?_eq_getLast _ hne]
  simp only [Option.map_some', ne_eq, Option.some.injEq]
  intro hx
  exact hlast ((xdigit_eq_zero_iff hlt).mp hx)

theorem convHex_length (bits : Nat) (v : Int) :
    (convHex bits v).length = hexLen (toUnsigned bits v) := by
  rw [convHex_eq]
  unfold hexLen
  by_cases h0 : toUnsigned bits v = 0
  · simp [h0]
  · simp [h0, Nat.digits_len 16 _ (by norm_num) h0]

theorem hexLen_le {n m : Nat} (hm : 0 < m) (hn : n < 16 ^ m) : hexLen n ≤ m := by
  unfold hexLen
  by_cases h0 : n = 0
  · simp [h0]; omega
  · simp only [h0, if_false]
    exact Nat.log_lt_of_lt_pow h0 hn

theorem newline_not_mem_convHex (bits : Nat) (v : Int) : '\n' ∉ convHex bits v := by
  intro h
  have := convHex_lowerHex bits v _ h
  exact absurd this (by decide)

/-! ## The run of `main` in closed form -/

theorem vformat_first (t : Target) (a : Int) :
    vformat t .text "DMA_HEAP_IOCTL_ALLOC: 0x%lx\n".toList [a] =
      some (("DMA_HEAP_IOCTL_ALLOC: 0x".toList ++ convHex t.longBits a) ++ ['\n']) := rfl

theorem vformat_second (t : Target) (a : Int) :
    vformat t .text "O_RDWR: 0x%x\n".toList [a] =
      some (("O_RDWR: 0x".toList ++ convHex UINT_BITS a) ++ ['\n']) := rfl

theorem vformat_third (t : Target) (a : Int) :
    vformat t .text "O_CLOEXEC: 0x%x\n".toList [a] =
      some (("O_CLOEXEC: 0x".toList ++ convHex UINT_BITS a) ++ ['\n']) := rfl

/-- A call of `printf` whose format is well formed: what it returns and the state it leaves. -/
theorem printf_eq {t : Target} {format : String} {args : List Int} {text : List Char}
    (h : vformat t .text format.toList args = some text) (w : World) :
    printf t format args w =
      some (if w.faults.head? = some true then -1 else (text.length : Int),
        { w with stdout := w.stdout ++ text, faults := w.faults.tail }) := by
  unfold printf
  rw [h]

/-- The run of `main`: status 0, the three lines appended to standard output. -/
theorem main_eq (t : Target) (k : Headers) (w : World) :
    main t k w =
      some (0, { w with stdout := w.stdout ++ reportText t k,
                        faults := w.faults.tail.tail.tail }) := by
  simp [main, printf_eq (vformat_first t _), printf_eq (vformat_second t _),
    printf_eq (vformat_third t _), reportText, bind, pure]

theorem splitLines_line (l rest : List Char) (hl : '\n' ∉ l) :
    splitLines (l ++ '\n' :: rest) = (splitLines rest).map (l :: ·) := by
  induction l with
  | nil => simp [splitLines]
  | cons c l ih =>
    have hc : c ≠ '\n' := fun h => hl (h ▸ List.mem_cons_self _ _)
    have hl2 : '\n' ∉ l := fun h => hl (List.mem_cons_of_mem _ h)
    rw [List.cons_append, splitLines, if_neg hc, ih hl2]
    cases splitLines rest <;> rfl

theorem newline_not_mem_line {label : List Char} (hlabel : '\n' ∉ label) (bits : Nat) (v : Int) :
    '\n' ∉ label ++ convHex bits v := by
  intro h
  rcases List.mem_append.mp h with h | h
  · exact hlabel h
  · exact newline_not_mem_convHex bits v h

/-- The text of a run splits into its three lines. -/
theorem splitLines_reportText (t : Target) (k : Headers) :
    splitLines (reportText t k) =
      some ["DMA_HEAP_IOCTL_ALLOC: 0x".toList ++ convHex t.longBits k.DMA_HEAP_IOCTL_ALLOC,
            "O_RDWR: 0x".toList ++ convHex UINT_BITS k.O_RDWR,
            "O_CLOEXEC: 0x".toList ++ convHex UINT_BITS k.O_CLOEXEC] := by
  unfold reportText
  rw [splitLines_line _ _ (newline_not_mem_line (by decide) _ _),
    splitLines_line _ _ (newline_not_mem_line (by decide) _ _),
    splitLines_line _ _ (newline_not_mem_line (by decide) _ _)]
  rfl

theorem afterLabel_first (ds : List Char) :
    afterLabel "DMA_HEAP_IOCTL_ALLOC" ("DMA_HEAP_IOCTL_ALLOC: 0x".toList ++ ds) = some ds := by
  simp [afterLabel]

theorem afterLabel_second (ds : List Char) :
    afterLabel "O_RDWR" ("O_RDWR: 0x".toList ++ ds) = some ds := by
  simp [afterLabel]

theorem afterLabel_third (ds : List Char) :
    afterLabel "O_CLOEXEC" ("O_CLOEXEC: 0x".toList ++ ds) = some ds := by
  simp [afterLabel]

theorem matchesLine_first (ds : List Char) :
    matchesLine ("DMA_HEAP_IOCTL_ALLOC: 0x".toList ++ ds) = (!ds.isEmpty && ds.all isLowerHex) := rfl

theorem matchesLine_second (ds : List Char) :
    matchesLine ("O_RDWR: 0x".toList ++ ds) = (!ds.isEmpty && ds.all isLowerHex) := rfl

theorem matchesLine_third (ds : List Char) :
    matchesLine ("O_CLOEXEC: 0x".toList ++ ds) = (!ds.isEmpty && ds.all isLowerHex) := rfl

theorem convHex_word (bits : Nat) (v : Int) :
    (!(convHex bits v).isEmpty && (convHex bits v).all isLowerHex) = true := by
  have hne := convHex_ne_nil bits v
  have hall : (convHex bits v).all isLowerHex = true :=
    List.all_eq_true.mpr (convHex_lowerHex bits v)
  rw [hall]
  cases h : convHex bits v with
  | nil => exact absurd h hne
  | cons _ _ => rfl

/-- Reading the text of a run back gives the constants at the widths of the conversions. -/
theorem readReport_reportText (t : Target) (k : Headers) :
    readReport (reportText t k) =
      some (toUnsigned t.longBits k.DMA_HEAP_IOCTL_ALLOC, toUnsigned UINT_BITS k.O_RDWR,
        toUnsigned UINT_BITS k.O_CLOEXEC) := by
  unfold readReport
  rw [splitLines_reportText]
  simp only [afterLabel_first, afterLabel_second, afterLabel_third, Option.some_bind,
    parseHex_convHex]

theorem toUnsigned_of_inRange {bits : Nat} {v : Int} (h0 : 0 ≤ v) (h1 : v < 2 ^ bits) :
    ((toUnsigned bits v : Nat) : Int) = v := by
  rw [toUnsigned_cast]
  exact Int.emod_eq_of_lt h0 h1

theorem toUnsigned_of_neg {bits : Nat} {v : Int} (h0 : -(2 ^ bits) ≤ v) (h1 : v < 0) :
    ((toUnsigned bits v : Nat) : Int) = v + 2 ^ bits := by
  rw [toUnsigned_cast, ← Int.add_emod_self]
  exact Int.emod_eq_of_lt (by linarith) (by linarith)

theorem toUnsigned_eq_toNat {bits : Nat} {v : Int} (h0 : 0 ≤ v) (h1 : v < 2 ^ bits) :
    toUnsigned bits v = v.toNat := by
  have h := toUnsigned_of_inRange h0 h1
  omega

theorem toUnsigned_eq_zero_iff {bits : Nat} {v : Int}
    (h0 : -(2 ^ (bits - 1)) ≤ v) (h1 : v < 2 ^ bits) (hb : 0 < bits) :
    toUnsigned bits v = 0 ↔ v = 0 := by
  have hpow : (2 : Int) ^ bits = 2 * 2 ^ (bits - 1) := by
    obtain ⟨m, rfl⟩ := Nat.exists_eq_succ_of_ne_zero (Nat.pos_iff_ne_zero.mp hb)
    simp [pow_succ, mul_comm]
  have hpos : (0 : Int) < 2 ^ (bits - 1) := by positivity
  rcases lt_or_le v 0 with hneg | hnn
  · have h : ((toUnsigned bits v : Nat) : Int) = v + 2 ^ bits :=
      toUnsigned_of_neg (by linarith) hneg
    constructor
    · intro hz
      rw [hz] at h
      simp only [Nat.cast_zero] at h
      linarith
    · intro hv
      linarith
  · have h := toUnsigned_of_inRange hnn h1
    constructor
    · intro hz
      rw [hz] at h
      simpa using h.symm
    · intro hv
      subst hv
      exact_mod_cast h

/-- What `convHex` prints for a well-typed argument is unpadded. -/
theorem convHex_unpadded {bits : Nat} {v : Int}
    (h0 : -(2 ^ (bits - 1)) ≤ v) (h1 : v < 2 ^ bits) (hb : 0 < bits) :
    Unpadded bits v (convHex bits v) := by
  have hz := toUnsigned_eq_zero_iff h0 h1 hb
  refine ⟨fun hv => convHex_of_zero (hz.mpr hv),
    fun hv => convHex_head_ne_zero (fun h => hv (hz.mp h)), convHex_length bits v, fun hnn => ?_⟩
  rw [convHex_length, toUnsigned_eq_toNat hnn h1]

theorem Target.longBits_pos (t : Target) : 0 < t.longBits := by
  cases t <;> decide

theorem convHex_shownAtWidth (m : Nat) (hm : 0 < m) (v : Int) :
    ShownAtWidth (4 * m) v (convHex (4 * m) v) := by
  have hle : (2 : Int) ^ (4 * m - 1) ≤ 2 ^ (4 * m) :=
    pow_le_pow_right₀ (by norm_num) (Nat.sub_le _ _)
  refine ⟨toUnsigned (4 * m) v, parseHex_convHex _ v, toUnsigned_cast _ v, ?_, ?_, ?_⟩
  · intro h0 h1
    exact toUnsigned_of_inRange h0 (lt_of_lt_of_le h1 hle)
  · intro h0 h1
    exact toUnsigned_of_neg (by linarith) h1
  · rw [convHex_length, Nat.mul_div_cancel_left m (by norm_num : 0 < 4)]
    apply hexLen_le hm
    have h := toUnsigned_lt (4 * m) v
    rw [pow_mul] at h
    exact h

/-! ## Output errors -/

/-- A call of `printf` on which the host reports an output error returns a negative value. -/
theorem printf_reports_fault :
    (printf .LP64 "O_RDWR: 0x%x\n" [2] World.failing).map Prod.fst = some (-1) := rfl

/-- A call of `printf` on which the host reports no error returns the number of characters. -/
theorem printf_reports_count :
    (printf .LP64 "O_RDWR: 0x%x\n" [2] World.init).map Prod.fst = some 12 := rfl

/-- The run of `main` on a host that reports an error on each of the three calls. -/
theorem main_on_failing_host :
    main .LP64 linuxHeaders World.failing =
      some (0, { World.init with
        stdout := "DMA_HEAP_IOCTL_ALLOC: 0xc0184800\nO_RDWR: 0x2\nO_CLOEXEC: 0x80000\n".toList }) := by
  rfl

/-! ## The claims -/

/-- C1: for every target, every value of the three constants and every initial
state (its `faults` say which of the `printf` calls report an error), `main`
returns, and the status it returns is 0. -/
theorem main_exit_status_zero (t : Target) (k : Headers) (w : World) :
    ∃ w', main t k w = some (0, w') :=
  ⟨_, main_eq t k w⟩

/-- C2: for every value of the constants, the text `main` writes to standard
output is exactly three newline-terminated lines, and each of them matches
`Label: 0x[0-9a-f]+`. -/
theorem main_writes_three_lines (t : Target) (k : Headers) (w : World) :
    ∃ w' out l1 l2 l3, main t k w = some (0, w') ∧ w'.stdout = w.stdout ++ out ∧
      splitLines out = some [l1, l2, l3] ∧
      matchesLine l1 = true ∧ matchesLine l2 = true ∧ matchesLine l3 = true := by
  refine ⟨_, reportText t k, _, _, _, main_eq t k w, rfl, splitLines_reportText t k, ?_, ?_, ?_⟩
  · rw [matchesLine_first]; exact convHex_word _ _
  · rw [matchesLine_second]; exact convHex_word _ _
  · rw [matchesLine_third]; exact convHex_word _ _

/-- C3: the three lines come in the order ioctl code, read-write flag,
close-on-exec flag: line 1 is the label `DMA_HEAP_IOCTL_ALLOC: 0x` followed by
the conversion of `DMA_HEAP_IOCTL_ALLOC`, line 2 is `O_RDWR: 0x` followed by that
of `O_RDWR`, line 3 is `O_CLOEXEC: 0x` followed by that of `O_CLOEXEC`, and read
back the three lines give the three constants, each at the width of its
conversion, in this order. -/
theorem main_lines_in_order (t : Target) (k : Headers) (w : World) :
    ∃ w' out l1 l2 l3, main t k w = some (0, w') ∧ w'.stdout = w.stdout ++ out ∧
      splitLines out = some [l1, l2, l3] ∧
      afterLabel "DMA_HEAP_IOCTL_ALLOC" l1 = some (convHex t.longBits k.DMA_HEAP_IOCTL_ALLOC) ∧
      afterLabel "O_RDWR" l2 = some (convHex UINT_BITS k.O_RDWR) ∧
      afterLabel "O_CLOEXEC" l3 = some (convHex UINT_BITS k.O_CLOEXEC) ∧
      readReport out = some (toUnsigned t.longBits k.DMA_HEAP_IOCTL_ALLOC,
        toUnsigned UINT_BITS k.O_RDWR, toUnsigned UINT_BITS k.O_CLOEXEC) :=
  ⟨_, reportText t k, _, _, _, main_eq t k w, rfl, splitLines_reportText t k,
    afterLabel_first _, afterLabel_second _, afterLabel_third _, readReport_reportText t k⟩

/-- C4, as stated, fails: with `O_RDWR = -1`, a value an `int` constant can have,
line 2 is `O_RDWR: 0xffffffff`, which reads back as 4294967295 and not as -1. -/
theorem readsBack_fails_on_negative_flag :
    ∃ w', main .LP64 negativeFlagHeaders World.init = some (0, w') ∧
      w'.stdout =
        "DMA_HEAP_IOCTL_ALLOC: 0xc0184800\nO_RDWR: 0xffffffff\nO_CLOEXEC: 0x80000\n".toList ∧
      readReport w'.stdout = some (0xc0184800, 0xffffffff, 0x80000) ∧
      ¬ ReadsBack negativeFlagHeaders w'.stdout := by
  have hr : readReport
      "DMA_HEAP_IOCTL_ALLOC: 0xc0184800\nO_RDWR: 0xffffffff\nO_CLOEXEC: 0x80000\n".toList =
      some (0xc0184800, 0xffffffff, 0x80000) := by rfl
  refine ⟨_, main_eq _ _ _, by rfl, hr, ?_⟩
  rintro ⟨a, b, c, h, -, hb, -⟩
  have hs : World.init.stdout ++ reportText .LP64 negativeFlagHeaders =
      "DMA_HEAP_IOCTL_ALLOC: 0xc0184800\nO_RDWR: 0xffffffff\nO_CLOEXEC: 0x80000\n".toList := by
    rfl
  simp only [hs, hr, Option.some.injEq, Prod.mk.injEq] at h
  obtain ⟨-, h2, -⟩ := h
  subst h2
  simp [negativeFlagHeaders] at hb

/-- C4, amended: when the constants are values of the unsigned types the
conversions read (`0 ≤ DMA_HEAP_IOCTL_ALLOC < 2 ^ longBits`, `0 ≤ O_RDWR < 2 ^ 32`,
`0 ≤ O_CLOEXEC < 2 ^ 32`), reading the three digit strings back in base 16 gives
exactly the three constants; and with the constants of a standard Linux build
on LP64 the text written is, character for character,
`DMA_HEAP_IOCTL_ALLOC: 0xc0184800`, `O_RDWR: 0x2`, `O_CLOEXEC: 0x80000`, each
followed by a newline. -/
theorem main_reads_back_in_range (t : Target) (k : Headers) (w : World) (hk : k.InRange t) :
    (∃ w' out, main t k w = some (0, w') ∧ w'.stdout = w.stdout ++ out ∧ ReadsBack k out) ∧
    (∃ w', main .LP64 linuxHeaders w = some (0, w') ∧
      w'.stdout = w.stdout ++
        "DMA_HEAP_IOCTL_ALLOC: 0xc0184800\nO_RDWR: 0x2\nO_CLOEXEC: 0x80000\n".toList) := by
  obtain ⟨⟨a0, a1⟩, ⟨b0, b1⟩, ⟨c0, c1⟩⟩ := hk
  refine ⟨⟨_, reportText t k, main_eq t k w, rfl, _, _, _, readReport_reportText t k,
    toUnsigned_of_inRange a0 a1, toUnsigned_of_inRange b0 b1, toUnsigned_of_inRange c0 c1⟩,
    ⟨_, main_eq _ _ w, ?_⟩⟩
  show w.stdout ++ reportText .LP64 linuxHeaders = _
  congr 1

/-- Witness of C4, amended: the constants of a standard Linux build on LP64. -/
theorem main_reads_back_in_range_witness :
    linuxHeaders.InRange .LP64 ∧
    (∃ w' out, main .LP64 linuxHeaders World.init = some (0, w') ∧
      w'.stdout = World.init.stdout ++ out ∧ ReadsBack linuxHeaders out) ∧
    (∃ w', main .LP64 linuxHeaders World.init = some (0, w') ∧
      w'.stdout = World.init.stdout ++
        "DMA_HEAP_IOCTL_ALLOC: 0xc0184800\nO_RDWR: 0x2\nO_CLOEXEC: 0x80000\n".toList) :=
  ⟨by decide, main_reads_back_in_range .LP64 linuxHeaders World.init (by decide)⟩

/-- C5: the text written and the exit status are fixed by the target and the three
constants: two runs with the same constants, from any two initial states
(whatever their arguments, environment, standard input, earlier output,
files and descriptors), write the same text and return the same status. -/
theorem main_deterministic (t : Target) (k : Headers) (w1 w2 : World) :
    ∃ out status w1' w2',
      main t k w1 = some (status, w1') ∧ w1'.stdout = w1.stdout ++ out ∧
      main t k w2 = some (status, w2') ∧ w2'.stdout = w2.stdout ++ out :=
  ⟨reportText t k, 0, _, _, main_eq t k w1, rfl, main_eq t k w2, rfl⟩

/-- C6: a run of `main` appends its three lines to standard output and leaves
standard error, the file system, the open descriptors, the arguments, the
environment and standard input as they were; and what it writes is the same
whatever the files and the environment hold. -/
theorem main_frame (t : Target) (k : Headers) (w : World) :
    ∃ w' out l1 l2 l3, main t k w = some (0, w') ∧ w'.stdout = w.stdout ++ out ∧
      splitLines out = some [l1, l2, l3] ∧
      w'.stderr = w.stderr ∧ w'.files = w.files ∧ w'.fds = w.fds ∧
      w'.argv = w.argv ∧ w'.environ = w.environ ∧ w'.stdin = w.stdin ∧
      ∀ (fs : List (String × List Char)) (env : List (String × String)),
        ∃ w2', main t k { w with files := fs, environ := env } = some (0, w2') ∧
          w2'.stdout = w'.stdout ∧ w2'.files = fs ∧ w2'.environ = env :=
  ⟨_, reportText t k, _, _, _, main_eq t k w, rfl, splitLines_reportText t k,
    rfl, rfl, rfl, rfl, rfl, rfl, fun _ _ => ⟨_, main_eq t k _, rfl, rfl, rfl⟩⟩

/-- C7: for constants of types the conversions accept, the digits after `0x` on
each line are written without padding: exactly `0` for a constant that is zero,
no leading `0` for one that is not, and as many digits as the value printed has
in base 16 (the constant itself when it is not negative). -/
theorem main_digits_unpadded (t : Target) (k : Headers) (w : World) (hk : k.WellTyped t) :
    ∃ w' out l1 l2 l3 d1 d2 d3, main t k w = some (0, w') ∧ w'.stdout = w.stdout ++ out ∧
      splitLines out = some [l1, l2, l3] ∧
      afterLabel "DMA_HEAP_IOCTL_ALLOC" l1 = some d1 ∧
      afterLabel "O_RDWR" l2 = some d2 ∧
      afterLabel "O_CLOEXEC" l3 = some d3 ∧
      Unpadded t.longBits k.DMA_HEAP_IOCTL_ALLOC d1 ∧
      Unpadded UINT_BITS k.O_RDWR d2 ∧
      Unpadded UINT_BITS k.O_CLOEXEC d3 := by
  obtain ⟨⟨a0, a1⟩, ⟨b0, b1⟩, ⟨c0, c1⟩⟩ := hk
  exact ⟨_, reportText t k, _, _, _, _, _, _, main_eq t k w, rfl, splitLines_reportText t k,
    afterLabel_first _, afterLabel_second _, afterLabel_third _,
    convHex_unpadded a0 a1 t.longBits_pos, convHex_unpadded b0 b1 (by decide),
    convHex_unpadded c0 c1 (by decide)⟩

/-- Witness of C7: on LP64, an ioctl code of 0xc0184800, `O_RDWR = -1` and
`O_CLOEXEC = 0x80000`. -/
theorem main_digits_unpadded_witness :
    negativeFlagHeaders.WellTyped .LP64 ∧
    ∃ w' out l1 l2 l3 d1 d2 d3,
      main .LP64 negativeFlagHeaders World.init = some (0, w') ∧
      w'.stdout = World.init.stdout ++ out ∧
      splitLines out = some [l1, l2, l3] ∧
      afterLabel "DMA_HEAP_IOCTL_ALLOC" l1 = some d1 ∧
      afterLabel "O_RDWR" l2 = some d2 ∧
      afterLabel "O_CLOEXEC" l3 = some d3 ∧
      Unpadded (Target.longBits .LP64) negativeFlagHeaders.DMA_HEAP_IOCTL_ALLOC d1 ∧
      Unpadded UINT_BITS negativeFlagHeaders.O_RDWR d2 ∧
      Unpadded UINT_BITS negativeFlagHeaders.O_CLOEXEC d3 :=
  ⟨by decide, main_digits_unpadded .LP64 negativeFlagHeaders World.init (by decide)⟩

/-- C8: the values shown are the constants at the widths of the conversions.
Lines 2 and 3 show `O_RDWR` and `O_CLOEXEC` modulo `2 ^ 32` (the constant itself
for `0 ≤ v < 2 ^ 31`, `v + 2 ^ 32` for a negative `int`), in at most 8 digits;
line 1 shows `DMA_HEAP_IOCTL_ALLOC` modulo `2 ^ longBits`, which on LP64 is
modulo `2 ^ 64`, in at most 16 digits. -/
theorem main_values_at_width (t : Target) (k : Headers) (w : World) :
    ∃ w' out l1 l2 l3 d1 d2 d3, main t k w = some (0, w') ∧ w'.stdout = w.stdout ++ out ∧
      splitLines out = some [l1, l2, l3] ∧
      afterLabel "DMA_HEAP_IOCTL_ALLOC" l1 = some d1 ∧
      afterLabel "O_RDWR" l2 = some d2 ∧
      afterLabel "O_CLOEXEC" l3 = some d3 ∧
      ShownAtWidth 32 k.O_RDWR d2 ∧ ShownAtWidth 32 k.O_CLOEXEC d3 ∧
      ShownAtWidth t.longBits k.DMA_HEAP_IOCTL_ALLOC d1 ∧
      (t = .LP64 → ShownAtWidth 64 k.DMA_HEAP_IOCTL_ALLOC d1) := by
  refine ⟨_, reportText t k, _, _, _, _, _, _, main_eq t k w, rfl, splitLines_reportText t k,
    afterLabel_first _, afterLabel_second _, afterLabel_third _,
    convHex_shownAtWidth 8 (by decide) _, convHex_shownAtWidth 8 (by decide) _, ?_, ?_⟩
  · cases t
    · exact convHex_shownAtWidth 8 (by decide) _
    · exact convHex_shownAtWidth 16 (by decide) _
  · rintro rfl
    exact convHex_shownAtWidth 16 (by decide) _

end Ioctl
